import Mathlib

/-!
Verification of the Isolines contour-map pipeline.

Shallow embedding of the core geometric/numeric routines of the repository
(`src/visvalingam.js`, `src/app.js`, `src/conrec.js`, `src/mitchell-sampling.js`)
over exact rational arithmetic.  JavaScript numbers are modelled by `ℚ`;
square roots never reach a branch decision except through monotone
comparisons, which are expressed on squared quantities; a JavaScript
division whose result would be non-finite (NaN or ±Infinity) is modelled by
`Option ℚ` where that matters.
-/

namespace Isolines

/-- A planar point, `{x, y}` in the source. -/
structure Point where
  x : ℚ
  y : ℚ
deriving DecidableEq, Repr

/-- Default point used to totalise list indexing; every indexing in the
source is in bounds, so the default is never observed by the theorems. -/
def pt0 : Point := ⟨0, 0⟩

/-- A line segment `{p1, p2}` as used by `Visvalingam.segmentsIntersect`. -/
structure Segment where
  p1 : Point
  p2 : Point
deriving DecidableEq, Repr

/-- Source `Visvalingam.direction(p1, p2, p3)`:
`(p3.x - p1.x) * (p2.y - p1.y) - (p2.x - p1.x) * (p3.y - p1.y)`. -/
def direction (p1 p2 p3 : Point) : ℚ :=
  (p3.x - p1.x) * (p2.y - p1.y) - (p2.x - p1.x) * (p3.y - p1.y)

/-- Source `Visvalingam.onSegment(p1, p2, p3)`: bounding-box test for `p2`
against the box spanned by `p1` and `p3`. -/
def onSegment (p1 p2 p3 : Point) : Bool :=
  decide (min p1.x p3.x ≤ p2.x ∧ p2.x ≤ max p1.x p3.x ∧
          min p1.y p3.y ≤ p2.y ∧ p2.y ≤ max p1.y p3.y)

/-- Source `Visvalingam.segmentsIntersect(seg1, seg2)`: proper crossing via the four
orientation tests, plus the collinear / touching cases via `onSegment`. -/
def segmentsIntersect (s1 s2 : Segment) : Bool :=
  let p1 := s1.p1
  let p2 := s1.p2
  let p3 := s2.p1
  let p4 := s2.p2
  let d1 := direction p3 p4 p1
  let d2 := direction p3 p4 p2
  let d3 := direction p1 p2 p3
  let d4 := direction p1 p2 p4
  if ((0 < d1 ∧ d2 < 0) ∨ (d1 < 0 ∧ 0 < d2)) ∧
     ((0 < d3 ∧ d4 < 0) ∨ (d3 < 0 ∧ 0 < d4)) then true
  else if d1 = 0 ∧ onSegment p3 p1 p4 = true then true
  else if d2 = 0 ∧ onSegment p3 p2 p4 = true then true
  else if d3 = 0 ∧ onSegment p1 p3 p2 = true then true
  else if d4 = 0 ∧ onSegment p1 p4 p2 = true then true
  else false

/-- Source `Visvalingam.triangleArea(p1, p2, p3)`: absolute shoelace area halved. -/
def triangleArea (p1 p2 p3 : Point) : ℚ :=
  |(p2.x - p1.x) * (p3.y - p1.y) - (p3.x - p1.x) * (p2.y - p1.y)| / 2

/-- The `while (prevIndex >= 0 && !keep[prevIndex]) prevIndex--` scan of
`wouldCreateIntersection`, started at a given index; `none` models the scan
running past index `0`. -/
def prevKept (keep : List Bool) : ℕ → Option ℕ
  | 0 => if keep.getD 0 false then some 0 else none
  | i + 1 => if keep.getD (i + 1) false then some (i + 1) else prevKept keep i

/-- Structural auxiliary for `nextKeptFrom`; the fuel is `n - i`, so the
recursion mirrors the source's upward scan step for step. -/
def nextKeptFromAux (keep : List Bool) (n : ℕ) : ℕ → ℕ → ℕ
  | 0, i => i
  | fuel + 1, i =>
    if i < n then
      (if keep.getD i false then i else nextKeptFromAux keep n fuel (i + 1))
    else i

/-- The `while (nextIndex < points.length && !keep[nextIndex]) nextIndex++`
scan of `wouldCreateIntersection`; returns `n` when no kept index remains. -/
def nextKeptFrom (keep : List Bool) (n : ℕ) (i : ℕ) : ℕ :=
  nextKeptFromAux keep n (n - i) i

/-- Source `Visvalingam.wouldCreateIntersection(points, keep, removeIndex)` (the same
routine is duplicated as `ContourMapApp.wouldCreateIntersection`).  The outer
`for` loop is rendered as `List.any` over the segment start indices: the
source `break` on `j >= points.length` only skips later iterations, all of
which would find the same exhausted `j` and contribute no intersection. -/
def wouldCreateIntersection (points : List Point) (keep : List Bool)
    (removeIndex : ℕ) : Bool :=
  let n := points.length
  let prev? := if removeIndex = 0 then none else prevKept keep (removeIndex - 1)
  let next := nextKeptFrom keep n (removeIndex + 1)
  match prev? with
  | none => false
  | some prevIndex =>
    if n ≤ next then false
    else
      let newSeg : Segment := ⟨points.getD prevIndex pt0, points.getD next pt0⟩
      (List.range (n - 1)).any fun i =>
        keep.getD i false &&
        (let j := nextKeptFrom keep n (i + 1)
         decide (j < n) &&
         !(decide (i = prevIndex ∨ j = next ∨ i = removeIndex ∨ j = removeIndex)) &&
         segmentsIntersect newSeg ⟨points.getD i pt0, points.getD j pt0⟩)

/-- One entry of the `heap` array built by `Visvalingam.simplify`. -/
structure HeapEntry where
  index : ℕ
  area : ℚ
deriving DecidableEq, Repr

/-- The `heap` of interior points with their effective areas
(`for (let i = 1; i < points.length - 1; i++)`); endpoints carry infinite
area in the source and never enter the heap. -/
def heapOf (points : List Point) : List HeapEntry :=
  (List.range (points.length - 2)).map fun m =>
    { index := m + 1
      area := triangleArea (points.getD m pt0) (points.getD (m + 1) pt0)
        (points.getD (m + 2) pt0) }

/-- Source `Math.max(...effectiveAreas.filter(a => a !== Infinity))`.  All finite
effective areas are nonnegative (they are absolute values), so folding from
`0` computes the same maximum for a nonempty interior. -/
def maxAreaOf (points : List Point) : ℚ :=
  ((heapOf points).map HeapEntry.area).foldl max 0

/-- The marking loop of `Visvalingam.simplify`: walk the area-sorted heap,
stop at the first entry whose area reaches `minArea`, otherwise clear the
`keep` flag unless the removal would create an intersection. -/
def markRemovals (points : List Point) (minArea : ℚ) :
    List HeapEntry → List Bool → List Bool
  | [], keep => keep
  | e :: rest, keep =>
    if minArea ≤ e.area then keep
    else if wouldCreateIntersection points keep e.index then
      markRemovals points minArea rest keep
    else
      markRemovals points minArea rest (keep.set e.index false)

/-- The final rebuild loop of `Visvalingam.simplify` (also the
`line.filter((point, idx) => lineData.keep[idx])` of
`applySimplificationByCount`): keep exactly the flagged points.  The `keep`
array always has the same length as the point list. -/
def applyKeep (points : List Point) (keep : List Bool) : List Point :=
  (points.zip keep).filterMap fun pb => if pb.2 then some pb.1 else none

/-- Source `Visvalingam.simplify(points, threshold)`.  The stable ascending sort of
the source (`heap.sort((a, b) => a.area - b.area)`) is rendered as the
stable `List.insertionSort` on the area preorder. -/
def visSimplify (points : List Point) (threshold : ℚ) : List Point :=
  if points.length ≤ 2 then points
  else
    applyKeep points
      (markRemovals points (threshold * maxAreaOf points)
        ((heapOf points).insertionSort fun a b => a.area ≤ b.area)
        (List.replicate points.length true))

/-! ### Self-crossing predicate (specification side)

A polyline self-crosses when two non-adjacent segments properly intersect
(strict orientation tests, the first branch of `segmentsIntersect`). -/

/-- Proper (transversal) crossing of two segments: the strict branch of
`Visvalingam.segmentsIntersect`. -/
def properlyCross (s1 s2 : Segment) : Bool :=
  let d1 := direction s2.p1 s2.p2 s1.p1
  let d2 := direction s2.p1 s2.p2 s1.p2
  let d3 := direction s1.p1 s1.p2 s2.p1
  let d4 := direction s1.p1 s1.p2 s2.p2
  decide (((0 < d1 ∧ d2 < 0) ∨ (d1 < 0 ∧ 0 < d2)) ∧
          ((0 < d3 ∧ d4 < 0) ∨ (d3 < 0 ∧ 0 < d4)))

/-- Whether some two non-adjacent segments of the polyline properly cross. -/
def hasSelfCrossing (l : List Point) : Bool :=
  (List.range (l.length - 1)).any fun i =>
    (List.range (l.length - 1)).any fun j =>
      decide (i + 2 ≤ j) &&
      properlyCross ⟨l.getD i pt0, l.getD (i + 1) pt0⟩
        ⟨l.getD j pt0, l.getD (j + 1) pt0⟩

/-! ### Count-based simplification (`ContourMapApp`, mode B)

Contour maps are dynamic objects keyed by numeric level in the source;
they are modelled as association lists from level to the list of polylines,
with levels pairwise distinct (JavaScript object keys are unique). -/

/-- A contour map: association list from elevation level to polylines. -/
abbrev ContourMap := List (ℚ × List (List Point))

/-- One entry of `simplificationPointRanking`:
`{level, lineIndex, pointIndex, area}` (the redundant `point` field of the
source is omitted; it is never read by the simplification). -/
structure RemovalCandidate where
  level : ℚ
  lineIndex : ℕ
  pointIndex : ℕ
  area : ℚ
deriving DecidableEq, Repr

/-- Source `ContourMapApp.calculateSimplificationRanking`: every interior point of
every polyline of every level, with its effective area, sorted ascending by
area (stable `Array.prototype.sort` is `List.mergeSort`). -/
def simplificationRanking (oc : ContourMap) : List RemovalCandidate :=
  (oc.flatMap fun lv =>
    lv.2.enum.flatMap fun li =>
      if li.2.length ≤ 2 then []
      else (List.range (li.2.length - 2)).map fun m =>
        { level := lv.1, lineIndex := li.1, pointIndex := m + 1
          area := triangleArea (li.2.getD m pt0) (li.2.getD (m + 1) pt0)
            (li.2.getD (m + 2) pt0) }
  ).insertionSort fun a b => a.area ≤ b.area

/-- Lines of the contour map at a given level (`contours[level]`). -/
def levelLines : ContourMap → ℚ → List (List Point)
  | [], _ => []
  | (lv, lines) :: rest, level => if lv = level then lines else levelLines rest level

/-- Source `currentContours[removal.level][removal.lineIndex]`. -/
def lineAt (oc : ContourMap) (level : ℚ) (lineIndex : ℕ) : List Point :=
  (levelLines oc level).getD lineIndex []

/-- Lookup in the `removalMap` object, keyed by `` `${level}_${lineIndex}` ``. -/
def lookupRM : List ((ℚ × ℕ) × List Bool) → ℚ × ℕ → Option (List Bool)
  | [], _ => none
  | (k, v) :: rest, key => if k = key then some v else lookupRM rest key

/-- Store into the `removalMap` object (overwrite or append). -/
def insertRM : List ((ℚ × ℕ) × List Bool) → ℚ × ℕ → List Bool →
    List ((ℚ × ℕ) × List Bool)
  | [], key, v => [(key, v)]
  | (k, w) :: rest, key, v =>
    if k = key then (k, v) :: rest else (k, w) :: insertRM rest key v

/-- The first loop of `applySimplificationByCount`: walk the ranked removal
candidates, initialise a per-line keep-array on first touch, and clear the
candidate's flag unless the intersection guard refuses. -/
def buildRemovalMap (oc : ContourMap) :
    List RemovalCandidate → List ((ℚ × ℕ) × List Bool) →
    List ((ℚ × ℕ) × List Bool)
  | [], m => m
  | c :: rest, m =>
    let line := lineAt oc c.level c.lineIndex
    let keep := (lookupRM m (c.level, c.lineIndex)).getD
      (List.replicate line.length true)
    let keep' := if wouldCreateIntersection line keep c.pointIndex then keep
                 else keep.set c.pointIndex false
    buildRemovalMap oc rest (insertRM m (c.level, c.lineIndex) keep')

/-- Source `ContourMapApp.applySimplificationByCount(removeCount)`, as a function of
the original contours and the precomputed ranking.  The deep copy of the
source is value copying here; lines shrinking below 2 points are dropped. -/
def applySimplificationByCount (oc : ContourMap) (ranking : List RemovalCandidate)
    (removeCount : ℕ) : ContourMap :=
  if removeCount = 0 then oc
  else
    let removalMap := buildRemovalMap oc (ranking.take removeCount) []
    oc.map fun lv =>
      (lv.1, lv.2.enum.filterMap fun li =>
        match lookupRM removalMap (lv.1, li.1) with
        | none => some li.2
        | some keep =>
          let newLine := applyKeep li.2 keep
          if 2 ≤ newLine.length then some newLine else none)

/-! ### Contour level generation (`generateContourLinesFromTriangles` /
`generateContourLines`) -/

/-- Source `startLevel = Math.ceil(minElev / interval) * interval`. -/
def startLevelOf (minElev interval : ℚ) : ℚ :=
  (⌈minElev / interval⌉ : ℤ) * interval

/-- Number of passes of the level loop
`for (let level = startLevel; level <= maxElev; level += interval)`:
for a positive interval the loop runs exactly
`⌊(maxElev - startLevel)/interval⌋ + 1` times when `startLevel ≤ maxElev`
and zero times otherwise; a non-positive interval never terminates in the
source and is modelled as zero levels. -/
def levelCount (minElev maxElev interval : ℚ) : ℕ :=
  if 0 < interval ∧ startLevelOf minElev interval ≤ maxElev then
    (⌊(maxElev - startLevelOf minElev interval) / interval⌋ + 1).toNat
  else 0

/-- The generated contour levels (`generateContourLinesFromTriangles` lines
653-658, identically `generateContourLines` lines 997-1002). -/
def contourLevels (minElev maxElev interval : ℚ) : List ℚ :=
  (List.range (levelCount minElev maxElev interval)).map fun k : ℕ =>
    startLevelOf minElev interval + (k : ℚ) * interval

/-! ### Plain IDW interpolation (`ContourMapApp.interpolateElevation`) -/

/-- A sample point with a (non-null) elevation. -/
structure Sample where
  x : ℚ
  y : ℚ
  elevation : ℚ
deriving DecidableEq, Repr

/-- The squared near-sample threshold: the source tests
`sqrt(dx*dx + dy*dy) < 1e-10`; squaring the (nonnegative) sides gives the
equivalent exact test against `1e-20`. -/
def nearThresholdSq : ℚ := 1 / 10 ^ 20

/-- Source test `distance < 1e-10` for one sample, on squared distances. -/
def isNearSample (x y : ℚ) (p : Sample) : Bool :=
  decide ((x - p.x) ^ 2 + (y - p.y) ^ 2 < nearThresholdSq)

/-- The accumulation loop of `interpolateElevation`: weight
`1/distance^2 = 1/(dx² + dy²)` exactly, early return on a near sample. -/
def interpAux (x y : ℚ) : List Sample → ℚ → ℚ → ℚ
  | [], num, den => num / den
  | p :: rest, num, den =>
    if isNearSample x y p then p.elevation
    else
      let w := 1 / ((x - p.x) ^ 2 + (y - p.y) ^ 2)
      interpAux x y rest (num + w * p.elevation) (den + w)

/-- Source `ContourMapApp.interpolateElevation(x, y, points)`. -/
def interpolateElevation (x y : ℚ) (points : List Sample) : ℚ :=
  interpAux x y points 0 0

/-! ### Sample filtering before triangulation
(`generateContourLinesFromTriangles`, lines 632-641) -/

/-- A raw sample whose elevation may still be pending or failed (`null`). -/
structure RawSample where
  x : ℚ
  y : ℚ
  elevation : Option ℚ
deriving DecidableEq, Repr

/-- The error conditions of the contour generation front-end. -/
inductive ContourError where
  | insufficientSamples
deriving DecidableEq, Repr

/-- The front of `generateContourLinesFromTriangles`: filter out samples
without a valid elevation; with fewer than 3 left, report and produce no
contours (the source logs an error and returns without building anything);
otherwise hand the valid samples to the triangulation. -/
def prepareContourPoints (points : List RawSample) :
    Except ContourError (List RawSample) :=
  let validPoints := points.filter fun p => p.elevation.isSome
  if validPoints.length < 3 then .error .insufficientSamples
  else .ok validPoints

/-! ### Edge sample generation (`generateSamplePoints`, lines 378-407) -/

/-- A point whose coordinates may be non-finite: `none` models the NaN or
±Infinity produced by a JavaScript division by zero. -/
structure OptPoint where
  x : Option ℚ
  y : Option ℚ
deriving DecidableEq, Repr

/-- JavaScript division where a zero divisor yields a non-finite number. -/
def jsDiv (a b : ℚ) : Option ℚ := if b = 0 then none else some (a / b)

/-- The four edge loops of `generateSamplePoints`: `xSamples` points on the
top and bottom edges at `minX + (i/(xSamples-1))*width`, and
`ySamples - 2` interior points on the left and right edges.  The source has
no guard: for `xSamples = 1` the position is `0/0`. -/
def generateEdgePoints (minX maxX minY maxY : ℚ) (xSamples ySamples : ℕ) :
    List OptPoint :=
  let width := maxX - minX
  let height := maxY - minY
  let top := (List.range xSamples).map fun i : ℕ =>
    OptPoint.mk ((jsDiv (i : ℚ) ((xSamples : ℚ) - 1)).map fun t => minX + t * width)
      (some maxY)
  let bottom := (List.range xSamples).map fun i : ℕ =>
    OptPoint.mk ((jsDiv (i : ℚ) ((xSamples : ℚ) - 1)).map fun t => minX + t * width)
      (some minY)
  let left := (List.range (ySamples - 2)).map fun m : ℕ =>
    OptPoint.mk (some minX)
      ((jsDiv ((m : ℚ) + 1) ((ySamples : ℚ) - 1)).map fun t => minY + t * height)
  let right := (List.range (ySamples - 2)).map fun m : ℕ =>
    OptPoint.mk (some maxX)
      ((jsDiv ((m : ℚ) + 1) ((ySamples : ℚ) - 1)).map fun t => minY + t * height)
  top ++ bottom ++ left ++ right

/-! ### Mitchell best-candidate sampling (`MitchellSampling.generate`)

Randomness is injected as a stream of unit-square draws; distances are
compared on squares (`sqrt` is strictly monotone, so `nearestDist >
bestDistance` is equivalent on squared values, with `0 = 0²` as the initial
best). -/

/-- Source `getNearestDistance`, squared: `none` models the `Infinity` start value
surviving an empty point list. -/
def nearestDistSq (pts : List Point) (c : Point) : Option ℚ :=
  pts.foldl
    (fun acc p =>
      let d := (c.x - p.x) ^ 2 + (c.y - p.y) ^ 2
      match acc with
      | none => some d
      | some m => some (min m d))
    none

/-- Comparison `nearestDist > bestDistance` where `none` is `Infinity`. -/
def distGt : Option ℚ → Option ℚ → Bool
  | none, none => false
  | none, some _ => true
  | some _, none => false
  | some d, some b => decide (b < d)

/-- The candidate loop of `MitchellSampling.generate`: try
`candidatesPerPoint` random candidates, keep the one farthest from the
existing points. -/
def mitchellPickBest (minX maxX minY maxY : ℚ) (rands : ℕ → ℚ × ℚ) (ctr : ℕ)
    (pts : List Point) (candidatesPerPoint : ℕ) : Option Point :=
  ((List.range candidatesPerPoint).foldl
    (fun acc i =>
      let c : Point := ⟨minX + (rands (ctr + i)).1 * (maxX - minX),
                        minY + (rands (ctr + i)).2 * (maxY - minY)⟩
      let nd := nearestDistSq pts c
      if distGt nd acc.2 then (some c, nd) else acc)
    ((none : Option Point), (some 0 : Option ℚ))).1

/-- The `while (this.points.length < targetCount)` loop.  Each pass either
pushes the best candidate or (when every candidate ties at distance 0)
pushes nothing — in that case the source never terminates, which the fuel
cuts off; `targetCount` passes suffice for every terminating run. -/
def mitchellLoop (minX maxX minY maxY : ℚ) (rands : ℕ → ℚ × ℚ)
    (candidatesPerPoint targetCount : ℕ) :
    ℕ → ℕ → List Point → List Point
  | 0, _, pts => pts
  | fuel + 1, ctr, pts =>
    if targetCount ≤ pts.length then pts
    else
      match mitchellPickBest minX maxX minY maxY rands ctr pts candidatesPerPoint with
      | some c => mitchellLoop minX maxX minY maxY rands candidatesPerPoint
          targetCount fuel (ctr + candidatesPerPoint) (pts ++ [c])
      | none => mitchellLoop minX maxX minY maxY rands candidatesPerPoint
          targetCount fuel (ctr + candidatesPerPoint) pts

/-- Source `MitchellSampling.generate(targetCount)`: the first point is pushed
unconditionally before the loop. -/
def mitchellGenerate (minX maxX minY maxY : ℚ) (rands : ℕ → ℚ × ℚ)
    (candidatesPerPoint targetCount : ℕ) : List Point :=
  let first : Point := ⟨minX + (rands 0).1 * (maxX - minX),
                        minY + (rands 0).2 * (maxY - minY)⟩
  mitchellLoop minX maxX minY maxY rands candidatesPerPoint targetCount
    targetCount 1 [first]

/-! ### Segment stitching (`ContourMapApp.connectContourSegments`) -/

/-- A contour segment `{start, end}` (the `end` field is named `stop`,
`end` being reserved in Lean). -/
structure ContourSeg where
  start : Point
  stop : Point
deriving DecidableEq, Repr

/-- The `pointsEqual` closure with the caller's tolerance `1e-8`. -/
def pointsEqualTol (p q : Point) : Bool :=
  decide (|p.x - q.x| < 1 / 10 ^ 8 ∧ |p.y - q.y| < 1 / 10 ^ 8)

/-- The first inner `for` loop: scan for the first unused segment matching
the tail of the current line, mark it used, and return the point to append. -/
def tryExtendEnd (last : Point) :
    List (ContourSeg × Bool) → Option (Point × List (ContourSeg × Bool))
  | [] => none
  | (s, used) :: rest =>
    if !used && pointsEqualTol last s.start then some (s.stop, (s, true) :: rest)
    else if !used && pointsEqualTol last s.stop then some (s.start, (s, true) :: rest)
    else (tryExtendEnd last rest).map fun r => (r.1, (s, used) :: r.2)

/-- The second inner `for` loop: scan for the first unused segment matching
the head of the current line, mark it used, and return the point to prepend. -/
def tryExtendStart (first : Point) :
    List (ContourSeg × Bool) → Option (Point × List (ContourSeg × Bool))
  | [] => none
  | (s, used) :: rest =>
    if !used && pointsEqualTol first s.stop then some (s.start, (s, true) :: rest)
    else if !used && pointsEqualTol first s.start then some (s.stop, (s, true) :: rest)
    else (tryExtendStart first rest).map fun r => (r.1, (s, used) :: r.2)

/-- The `while (extended)` loop.  Each successful pass marks one more
segment used, so any fuel above the number of unused segments makes the
recursion stop exactly when no extension matches, as in the source. -/
def extendLoop : ℕ → List Point → List (ContourSeg × Bool) →
    List Point × List (ContourSeg × Bool)
  | 0, line, segs => (line, segs)
  | fuel + 1, line, segs =>
    match tryExtendEnd (line.getLastD pt0) segs with
    | some (p, segs') => extendLoop fuel (line ++ [p]) segs'
    | none =>
      match tryExtendStart (line.headD pt0) segs with
      | some (p, segs') => extendLoop fuel (p :: line) segs'
      | none => (line, segs)

/-- The outer `for (let i...)` scan: segments with lower index are already
used when the scan passes them, so it picks the first unused segment. -/
def firstUnused : List (ContourSeg × Bool) →
    Option (ContourSeg × List (ContourSeg × Bool))
  | [] => none
  | (s, used) :: rest =>
    if used then (firstUnused rest).map fun r => (r.1, (s, used) :: r.2)
    else some (s, (s, true) :: rest)

/-- The outer loop of `connectContourSegments`: start a fresh polyline from
the first unused segment, extend it maximally, repeat.  Each pass uses at
least one segment, so `segments.length` passes always finish the work. -/
def connectLoop : ℕ → List (ContourSeg × Bool) → List (List Point) →
    List (List Point)
  | 0, _, acc => acc.reverse
  | fuel + 1, segs, acc =>
    match firstUnused segs with
    | none => acc.reverse
    | some (s, segs') =>
      let r := extendLoop (segs'.length + 1) [s.start, s.stop] segs'
      connectLoop fuel r.2 (r.1 :: acc)

/-- Source `ContourMapApp.connectContourSegments(segments)` (tolerance `1e-8`). -/
def connectContourSegments (segments : List ContourSeg) : List (List Point) :=
  if segments.isEmpty then []
  else connectLoop segments.length (segments.map fun s => (s, false)) []

/-- Number of segments not yet marked used. -/
def unusedCount (segs : List (ContourSeg × Bool)) : ℕ :=
  (segs.filter fun sb => !sb.2).length

/-- Total number of consecutive point pairs over a set of polylines. -/
def sumSegCounts (lines : List (List Point)) : ℕ :=
  (lines.map fun l => l.length - 1).sum

/-- Same polyline up to rotation and/or reversal (specification side). -/
def equivPolyline (l1 l2 : List Point) : Bool :=
  decide (l1 = l2) || decide (l1.reverse = l2) ||
  (List.range l1.length).any (fun k => decide (l1.rotate k = l2)) ||
  (List.range l1.length).any (fun k => decide ((l1.rotate k).reverse = l2))

/-- Same multiset-up-to-equivalence of polylines, in the lenient sense:
equal cardinality and mutual coverage up to rotation/reversal. -/
def samePolylineSets (a b : List (List Point)) : Bool :=
  decide (a.length = b.length) &&
  (a.all fun l => b.any fun m => equivPolyline l m) &&
  (b.all fun m => a.any fun l => equivPolyline l m)

/-! ### Helper lemmas: geometry -/

theorem triangleArea_nonneg (p1 p2 p3 : Point) : 0 ≤ triangleArea p1 p2 p3 := by
  unfold triangleArea
  positivity

/-- Two segments sharing the endpoint `B` (as `seg1.p1` and `seg2.p2`) always
pass the source's intersection test: the collinear branch for `d1` fires. -/
theorem segmentsIntersect_shared_left (A B D : Point) :
    segmentsIntersect ⟨B, D⟩ ⟨A, B⟩ = true := by
  unfold segmentsIntersect
  simp only
  split_ifs with h1 h2 <;> try rfl
  exact absurd ⟨by unfold direction; ring,
    by unfold onSegment; simp [min_le_right, le_max_right]⟩ h2

/-- Two segments sharing the endpoint `D` (as `seg1.p2` and `seg2.p1`) always
pass the source's intersection test: the collinear branch for `d3` fires. -/
theorem segmentsIntersect_shared_right (B D E : Point) :
    segmentsIntersect ⟨B, D⟩ ⟨D, E⟩ = true := by
  unfold segmentsIntersect
  simp only
  split_ifs with h1 h2 h3 h4 <;> try rfl
  exact absurd ⟨by unfold direction; ring,
    by unfold onSegment; simp [min_le_right, le_max_right]⟩ h4

/-! ### Helper lemmas: keep-array scans -/

theorem getD_replicate_true {n i : ℕ} (h : i < n) :
    (List.replicate n true).getD i false = true := by
  simp [List.getD_eq_getElem?_getD, List.getElem?_replicate, h]

theorem prevKept_replicate {n i : ℕ} (h : i < n) :
    prevKept (List.replicate n true) i = some i := by
  cases i with
  | zero => simp [prevKept, List.getD_eq_getElem?_getD, List.getElem?_replicate, h]
  | succ j => simp [prevKept, List.getD_eq_getElem?_getD, List.getElem?_replicate, h]

theorem nextKeptFrom_replicate {n i : ℕ} (h : i < n) :
    nextKeptFrom (List.replicate n true) n i = i := by
  unfold nextKeptFrom
  obtain ⟨f, hf⟩ : ∃ f, n - i = f + 1 := ⟨n - i - 1, by omega⟩
  rw [hf]
  unfold nextKeptFromAux
  simp [h, getD_replicate_true h]

/-- With every point still kept and at least 4 points, the intersection guard
always refuses a removal: the bridging segment shares an endpoint with a
checked kept segment (the one just before `prevIndex`, or the one just after
`nextIndex`), and shared endpoints count as intersections in the source. -/
theorem wouldCreateIntersection_replicate {pts : List Point} {k : ℕ}
    (h4 : 4 ≤ pts.length) (hk1 : 1 ≤ k) (hk2 : k + 2 ≤ pts.length) :
    wouldCreateIntersection pts (List.replicate pts.length true) k = true := by
  unfold wouldCreateIntersection
  have hk0 : ¬ (k = 0) := by omega
  have hprev : k - 1 < pts.length := by omega
  have hnext : k + 1 < pts.length := by omega
  simp only [hk0, if_false, prevKept_replicate hprev, nextKeptFrom_replicate hnext]
  have hno : ¬ (pts.length ≤ k + 1) := by omega
  rw [if_neg hno]
  rw [List.any_eq_true]
  by_cases hk2' : 2 ≤ k
  · -- witness: the segment from index k-2 to index k-1
    refine ⟨k - 2, List.mem_range.mpr (by omega), ?_⟩
    have e1 : k - 2 + 1 = k - 1 := by omega
    simp only [e1, nextKeptFrom_replicate hprev, Bool.and_eq_true]
    refine ⟨getD_replicate_true (by omega), ⟨?_, ?_⟩, ?_⟩
    · simp only [decide_eq_true_eq]
      omega
    · simp only [Bool.not_eq_true', decide_eq_false_iff_not]
      omega
    · exact segmentsIntersect_shared_left _ _ _
  · -- k = 1: witness: the segment from index 2 to index 3
    have hk : k = 1 := by omega
    subst hk
    refine ⟨2, List.mem_range.mpr (by omega), ?_⟩
    simp only [nextKeptFrom_replicate (show 2 + 1 < pts.length by omega),
      Bool.and_eq_true]
    refine ⟨getD_replicate_true (by omega), ⟨?_, ?_⟩, ?_⟩
    · simp only [decide_eq_true_eq]
      omega
    · simp only [Bool.not_eq_true', decide_eq_false_iff_not]
      omega
    · show segmentsIntersect ⟨pts.getD (1 - 1) pt0, pts.getD (1 + 1) pt0⟩
        ⟨pts.getD 2 pt0, pts.getD (2 + 1) pt0⟩ = true
      norm_num
      exact segmentsIntersect_shared_right _ _ _

/-! ### Helper lemmas: the simplification marking loop -/

theorem heapOf_mem_index {pts : List Point} {e : HeapEntry} (h : e ∈ heapOf pts) :
    1 ≤ e.index ∧ e.index + 2 ≤ pts.length := by
  unfold heapOf at h
  obtain ⟨m, hm, rfl⟩ := List.mem_map.mp h
  have hm' := List.mem_range.mp hm
  exact ⟨Nat.le_add_left 1 m, show m + 1 + 2 ≤ pts.length by omega⟩

theorem heapOf_mem_area_nonneg {pts : List Point} {e : HeapEntry}
    (h : e ∈ heapOf pts) : 0 ≤ e.area := by
  unfold heapOf at h
  obtain ⟨m, hm, rfl⟩ := List.mem_map.mp h
  exact triangleArea_nonneg _ _ _

/-- With at least 4 points and all of them kept, the marking loop removes
nothing: every candidate is refused by the intersection guard. -/
theorem markRemovals_id_of_four {pts : List Point} {minArea : ℚ}
    (h4 : 4 ≤ pts.length) :
    ∀ entries : List HeapEntry,
      (∀ e ∈ entries, 1 ≤ e.index ∧ e.index + 2 ≤ pts.length) →
      markRemovals pts minArea entries (List.replicate pts.length true) =
        List.replicate pts.length true := by
  intro entries
  induction entries with
  | nil => intro _; rfl
  | cons e rest ih =>
    intro hwf
    unfold markRemovals
    obtain ⟨h1, h2⟩ := hwf e (List.mem_cons_self _ _)
    split_ifs with hb hg
    · rfl
    · exact ih fun x hx => hwf x (List.mem_cons_of_mem _ hx)
    · exact absurd (wouldCreateIntersection_replicate h4 h1 h2) (by simp [hg])

theorem applyKeep_cons_true (p : Point) (rest : List Point) (keep : List Bool) :
    applyKeep (p :: rest) (true :: keep) = p :: applyKeep rest keep := rfl

theorem applyKeep_replicate (pts : List Point) :
    applyKeep pts (List.replicate pts.length true) = pts := by
  induction pts with
  | nil => rfl
  | cons p rest ih =>
    simp only [List.length_cons, List.replicate_succ, applyKeep_cons_true]
    rw [ih]

/-- Source `Visvalingam.simplify` with any threshold at most 1 is the identity.
For 3-point lines the single interior point has the maximal effective area,
so the sorted scan stops immediately; for longer lines every candidate
removal is refused by the intersection guard (shared endpoints count as
intersections), so the keep-array never changes. -/
theorem visSimplify_id_of_le_one (pts : List Point) (t : ℚ) (ht : t ≤ 1) :
    visSimplify pts t = pts := by
  unfold visSimplify
  split_ifs with hlen
  · rfl
  · push_neg at hlen
    by_cases h4 : 4 ≤ pts.length
    · rw [markRemovals_id_of_four h4 _ (fun e he => heapOf_mem_index
        ((List.mem_insertionSort _).mp he))]
      exact applyKeep_replicate pts
    · -- exactly three points
      have h3 : pts.length = 3 := by omega
      match pts, h3 with
      | [a, b, c], _ =>
        have harea : 0 ≤ triangleArea a b c := triangleArea_nonneg a b c
        have hheap : heapOf [a, b, c] = [⟨1, triangleArea a b c⟩] := rfl
        have hsort : (heapOf [a, b, c]).insertionSort
            (fun a b => a.area ≤ b.area) = [⟨1, triangleArea a b c⟩] := by
          rw [hheap]
          rfl
        rw [hsort]
        have hmax : maxAreaOf [a, b, c] = triangleArea a b c := by
          unfold maxAreaOf
          rw [hheap]
          simp [max_eq_right harea]
        unfold markRemovals
        rw [if_pos (by rw [hmax]; nlinarith)]
        exact applyKeep_replicate [a, b, c]

/-! ### Claim C2 -/

/-- C2, counterexample: on the 3-point polyline (0,0), (1,1), (2,0) with
threshold 1, `Visvalingam.simplify` keeps all three points (the single
interior point has the maximal effective area, and the scan stops as soon
as an area reaches `threshold * maxArea`), so the result is not the
two endpoints. -/
theorem visvalingam_threshold_one_keeps_midpoint :
    visSimplify [⟨0, 0⟩, ⟨1, 1⟩, ⟨2, 0⟩] 1 = [⟨0, 0⟩, ⟨1, 1⟩, ⟨2, 0⟩] ∧
    visSimplify [⟨0, 0⟩, ⟨1, 1⟩, ⟨2, 0⟩] 1 ≠ [⟨0, 0⟩, ⟨2, 0⟩] := by
  constructor <;> decide!

/-- C2 (amended): for every polyline with at least 3 points, simplification
with threshold 1 returns the polyline unchanged — in particular never fewer
than two points, but also never only the two endpoints. -/
theorem visvalingam_threshold_one_id (pts : List Point) (_h : 3 ≤ pts.length) :
    visSimplify pts 1 = pts :=
  visSimplify_id_of_le_one pts 1 le_rfl

/-- C2 witness: the amended theorem applied to a concrete 3-point line. -/
theorem visvalingam_threshold_one_id_witness :
    3 ≤ ([⟨0, 0⟩, ⟨1, 1⟩, ⟨2, 0⟩] : List Point).length ∧
    visSimplify [⟨0, 0⟩, ⟨1, 1⟩, ⟨2, 0⟩] 1 = [⟨0, 0⟩, ⟨1, 1⟩, ⟨2, 0⟩] :=
  ⟨by decide, visvalingam_threshold_one_id [⟨0, 0⟩, ⟨1, 1⟩, ⟨2, 0⟩] (by decide)⟩

/-- The claimed idempotence also fails for longer polylines: with 4 points
the intersection guard refuses every removal, so threshold 1 keeps all
4 points rather than only the endpoints. -/
theorem visvalingam_threshold_one_keeps_four :
    visSimplify [⟨0, 0⟩, ⟨1, 1⟩, ⟨2, 0⟩, ⟨3, 1⟩] 1 =
      [⟨0, 0⟩, ⟨1, 1⟩, ⟨2, 0⟩, ⟨3, 1⟩] := by
  decide!

/-! ### Claim C3 -/

/-- C3: a zero threshold removes no points (`simplify(line, 0)` returns the
line unchanged: every effective area is nonnegative, so the very first
sorted candidate already meets the zero minimum area and the scan stops),
and count-based simplification with `removeCount = 0` returns contours
identical to the original map. -/
theorem simplify_zero_roundtrip :
    (∀ pts : List Point, visSimplify pts 0 = pts) ∧
    (∀ (oc : ContourMap) (ranking : List RemovalCandidate),
      applySimplificationByCount oc ranking 0 = oc) := by
  constructor
  · intro pts
    exact visSimplify_id_of_le_one pts 0 (by norm_num)
  · intro oc ranking
    unfold applySimplificationByCount
    simp

/-! ### Claim C5 -/

/-- The early-return loop: if `find?` locates a near sample, the
interpolation returns exactly that (first) sample's elevation, whatever the
accumulators hold. -/
theorem interpAux_find_near (x y : ℚ) :
    ∀ (pts : List Sample) (p : Sample) (num den : ℚ),
      pts.find? (isNearSample x y) = some p →
      interpAux x y pts num den = p.elevation := by
  intro pts
  induction pts with
  | nil => intro p num den h; simp [List.find?] at h
  | cons q rest ih =>
    intro p num den h
    rw [List.find?] at h
    unfold interpAux
    by_cases hq : isNearSample x y q = true
    · rw [hq] at h
      simp only [Option.some.injEq] at h
      rw [if_pos hq, h]
    · rw [Bool.not_eq_true] at hq
      rw [hq] at h
      simp only at h
      rw [if_neg (by simp [hq])]
      exact ih p _ _ h

/-- C5: if some sample lies within `1e-10` of the query, plain IDW returns
that sample's elevation exactly — the sample in question being the first
such sample in the list, which is what the source's loop returns.  In
particular, querying at an exact sample coordinate returns the elevation
stored for that coordinate. -/
theorem idw_exact_at_near_sample (x y : ℚ) (pts : List Sample)
    (h : ∃ p ∈ pts, isNearSample x y p = true) :
    ∃ p ∈ pts, isNearSample x y p = true ∧
      interpolateElevation x y pts = p.elevation := by
  obtain ⟨q, hq, hnear⟩ := h
  obtain ⟨p, hfind⟩ : ∃ p, pts.find? (isNearSample x y) = some p := by
    cases hf : pts.find? (isNearSample x y) with
    | some p => exact ⟨p, rfl⟩
    | none => exact absurd hnear (by simpa using List.find?_eq_none.mp hf q hq)
  exact ⟨p, List.mem_of_find?_eq_some hfind, List.find?_some hfind,
    interpAux_find_near x y pts p 0 0 hfind⟩

/-- C5 witness: querying the exact coordinate of the only sample returns its
elevation. -/
theorem idw_exact_at_near_sample_witness :
    ∃ p ∈ [(⟨2, 3, 47⟩ : Sample)], isNearSample 2 3 p = true ∧
      interpolateElevation 2 3 [(⟨2, 3, 47⟩ : Sample)] = p.elevation :=
  idw_exact_at_near_sample 2 3 [⟨2, 3, 47⟩] ⟨⟨2, 3, 47⟩, by decide, by decide!⟩

/-! ### Claim C10 -/

theorem interpAux_bounded (x y lo hi : ℚ) :
    ∀ (pts : List Sample) (num den : ℚ),
      (∀ p ∈ pts, lo ≤ p.elevation ∧ p.elevation ≤ hi) →
      0 ≤ den → lo * den ≤ num → num ≤ hi * den →
      (pts = [] → 0 < den) →
      lo ≤ interpAux x y pts num den ∧ interpAux x y pts num den ≤ hi := by
  intro pts
  induction pts with
  | nil =>
    intro num den _ _ hlo hhi hden
    have hpos : 0 < den := hden rfl
    unfold interpAux
    constructor
    · rw [le_div_iff₀ hpos]
      linarith
    · rw [div_le_iff₀ hpos]
      linarith
  | cons p rest ih =>
    intro num den hmem hden hlo hhi _
    unfold interpAux
    by_cases hnear : isNearSample x y p = true
    · rw [if_pos hnear]
      exact hmem p (List.mem_cons_self _ _)
    · rw [if_neg hnear]
      have hfar : nearThresholdSq ≤ (x - p.x) ^ 2 + (y - p.y) ^ 2 := by
        unfold isNearSample at hnear
        simpa using hnear
      have hd2 : 0 < (x - p.x) ^ 2 + (y - p.y) ^ 2 := by
        have : (0 : ℚ) < nearThresholdSq := by norm_num [nearThresholdSq]
        linarith
      have hw : 0 < 1 / ((x - p.x) ^ 2 + (y - p.y) ^ 2) := by positivity
      obtain ⟨hplo, hphi⟩ := hmem p (List.mem_cons_self _ _)
      refine ih _ _ (fun q hq => hmem q (List.mem_cons_of_mem _ hq)) (by linarith)
        ?_ ?_ (fun _ => by linarith)
      · have := mul_le_mul_of_nonneg_left hplo (le_of_lt hw)
        calc lo * (den + 1 / ((x - p.x) ^ 2 + (y - p.y) ^ 2))
            = lo * den + (1 / ((x - p.x) ^ 2 + (y - p.y) ^ 2)) * lo := by ring
          _ ≤ num + (1 / ((x - p.x) ^ 2 + (y - p.y) ^ 2)) * p.elevation := by
              exact add_le_add hlo this
          _ = num + 1 / ((x - p.x) ^ 2 + (y - p.y) ^ 2) * p.elevation := rfl
      · have := mul_le_mul_of_nonneg_left hphi (le_of_lt hw)
        calc num + 1 / ((x - p.x) ^ 2 + (y - p.y) ^ 2) * p.elevation
            ≤ hi * den + (1 / ((x - p.x) ^ 2 + (y - p.y) ^ 2)) * hi := by
              exact add_le_add hhi this
          _ = hi * (den + 1 / ((x - p.x) ^ 2 + (y - p.y) ^ 2)) := by ring

/-- C10: for a nonempty sample list, plain IDW returns a value between any
lower and upper bound of the sample elevations — in particular between
their minimum and maximum.  The result is either a near sample's elevation
or a convex combination with strictly positive weights. -/
theorem idw_within_sample_bounds (x y lo hi : ℚ) (pts : List Sample)
    (hne : pts ≠ [])
    (hbounds : ∀ p ∈ pts, lo ≤ p.elevation ∧ p.elevation ≤ hi) :
    lo ≤ interpolateElevation x y pts ∧ interpolateElevation x y pts ≤ hi := by
  unfold interpolateElevation
  exact interpAux_bounded x y lo hi pts 0 0 hbounds le_rfl (by simp) (by simp)
    (fun h => absurd h hne)

/-- C10 witness: a two-sample instance, evaluated concretely. -/
theorem idw_within_sample_bounds_witness :
    0 ≤ interpolateElevation 1 0 [⟨0, 0, 0⟩, ⟨2, 0, 10⟩] ∧
    interpolateElevation 1 0 [⟨0, 0, 0⟩, ⟨2, 0, 10⟩] ≤ 10 :=
  idw_within_sample_bounds 1 0 0 10 [⟨0, 0, 0⟩, ⟨2, 0, 10⟩] (by decide)
    (by
      intro p hp
      simp only [List.mem_cons, List.not_mem_nil, or_false] at hp
      rcases hp with rfl | rfl
      · constructor <;> norm_num
      · constructor <;> norm_num)

/-! ### Claim C4 -/

/-- C4: for a positive interval, the generated contour levels are exactly
the integer multiples of the interval lying in
`[⌈minElevation/interval⌉ * interval, maxElevation]`. -/
theorem contour_levels_exact (minE maxE interval : ℚ) (hpos : 0 < interval)
    (x : ℚ) :
    x ∈ contourLevels minE maxE interval ↔
      ∃ m : ℤ, x = m * interval ∧ ⌈minE / interval⌉ ≤ m ∧ x ≤ maxE := by
  unfold contourLevels
  simp only [List.mem_map, List.mem_range]
  constructor
  · rintro ⟨k, hk, rfl⟩
    refine ⟨⌈minE / interval⌉ + (k : ℤ), by unfold startLevelOf; push_cast; ring,
      le_add_of_nonneg_right (by positivity), ?_⟩
    unfold levelCount at hk
    rcases Decidable.em (startLevelOf minE interval ≤ maxE) with hs | hs
    · rw [if_pos ⟨hpos, hs⟩] at hk
      have hk' : (k : ℤ) ≤ ⌊(maxE - startLevelOf minE interval) / interval⌋ := by
        omega
      have hk'' : (k : ℚ) ≤ (maxE - startLevelOf minE interval) / interval := by
        exact_mod_cast le_trans (by exact_mod_cast hk') (Int.floor_le _)
      rw [le_div_iff₀ hpos] at hk''
      unfold startLevelOf at hk'' ⊢
      linarith
    · rw [if_neg (by tauto)] at hk
      omega
  · rintro ⟨m, rfl, hm, hle⟩
    have hcast : ((⌈minE / interval⌉ : ℤ) : ℚ) ≤ (m : ℚ) := by exact_mod_cast hm
    have hstart : startLevelOf minE interval ≤ maxE := by
      unfold startLevelOf
      exact le_trans (mul_le_mul_of_nonneg_right hcast (le_of_lt hpos)) hle
    have hfl : m - ⌈minE / interval⌉ ≤
        ⌊(maxE - startLevelOf minE interval) / interval⌋ := by
      rw [Int.le_floor, le_div_iff₀ hpos]
      unfold startLevelOf
      push_cast
      linarith
    refine ⟨(m - ⌈minE / interval⌉).toNat, ?_, ?_⟩
    · unfold levelCount
      rw [if_pos ⟨hpos, hstart⟩]
      omega
    · have hnn : 0 ≤ m - ⌈minE / interval⌉ := by omega
      unfold startLevelOf
      have : (((m - ⌈minE / interval⌉).toNat : ℤ) : ℚ) =
          (m : ℚ) - ((⌈minE / interval⌉ : ℤ) : ℚ) := by
        rw [Int.toNat_of_nonneg hnn]
        push_cast
        ring
      push_cast at this ⊢
      rw [this]
      ring

/-- C4 witness: min 12, max 47, interval 10 — the levels are exactly the
multiples 20, 30, 40 of 10; instantiated at 20 and at the excluded 10. -/
theorem contour_levels_exact_witness :
    (0 : ℚ) < 10 ∧
    ((20 : ℚ) ∈ contourLevels 12 47 10 ↔
      ∃ m : ℤ, (20 : ℚ) = m * 10 ∧ ⌈(12 : ℚ) / 10⌉ ≤ m ∧ (20 : ℚ) ≤ 47) ∧
    ((10 : ℚ) ∈ contourLevels 12 47 10 ↔
      ∃ m : ℤ, (10 : ℚ) = m * 10 ∧ ⌈(12 : ℚ) / 10⌉ ≤ m ∧ (10 : ℚ) ≤ 47) :=
  ⟨by norm_num, contour_levels_exact 12 47 10 (by norm_num) 20,
    contour_levels_exact 12 47 10 (by norm_num) 10⟩

/-- The worked example from the specification, evaluated: levels for
min 12, max 47, interval 10 are `[20, 30, 40]`. -/
theorem contour_levels_example :
    contourLevels 12 47 10 = [20, 30, 40] := by
  decide!

/-! ### Claim C6 -/

/-- C6: contour generation filters out samples with null/missing elevation
before triangulation; it reports `InsufficientSamples` (and produces no
contours) exactly when fewer than 3 valid samples remain, and otherwise
proceeds with precisely the valid samples: every retained sample has a
valid elevation and every valid sample is retained. -/
theorem insufficient_samples_guard (points : List RawSample) :
    (prepareContourPoints points = .error .insufficientSamples ↔
      (points.filter fun p => p.elevation.isSome).length < 3) ∧
    (∀ l, prepareContourPoints points = .ok l →
      3 ≤ l.length ∧
      (∀ p ∈ l, p.elevation.isSome = true) ∧
      (∀ p ∈ points, p.elevation.isSome = true → p ∈ l)) := by
  unfold prepareContourPoints
  dsimp only
  constructor
  · split_ifs with h
    · simp [h]
    · simp [h]
  · intro l hl
    by_cases h : (points.filter fun p => p.elevation.isSome).length < 3
    · rw [if_pos h] at hl
      cases hl
    · rw [if_neg h] at hl
      obtain rfl : (points.filter fun p => p.elevation.isSome) = l := by
        injection hl
      exact ⟨by omega, fun p hp => (List.mem_filter.mp hp).2,
        fun p hp hv => List.mem_filter.mpr ⟨hp, hv⟩⟩

/-- C6 witness: two valid samples out of three trigger the error; three
valid samples out of four let the run proceed with exactly the valid ones. -/
theorem insufficient_samples_guard_witness :
    prepareContourPoints [⟨0, 0, none⟩, ⟨1, 0, some 5⟩, ⟨2, 0, some 6⟩] =
      .error .insufficientSamples ∧
    3 ≤ ([⟨1, 0, some 5⟩, ⟨2, 0, some 6⟩, ⟨3, 0, some 7⟩] : List RawSample).length :=
  ⟨(insufficient_samples_guard [⟨0, 0, none⟩, ⟨1, 0, some 5⟩, ⟨2, 0, some 6⟩]).1.mpr
      (by decide),
   ((insufficient_samples_guard
        [⟨0, 0, none⟩, ⟨1, 0, some 5⟩, ⟨2, 0, some 6⟩, ⟨3, 0, some 7⟩]).2
      ([⟨1, 0, some 5⟩, ⟨2, 0, some 6⟩, ⟨3, 0, some 7⟩]) rfl).1⟩

/-! ### Claim C7 -/

/-- C7 is false of the code: there is no degenerate-case guard.  With
`xSamples = 1` (reached e.g. from `totalSamples = 4` on square bounds:
`edgeSamples = round(4·0.25) = 1`, `xSamples = round(√(1·1)) = 1`) the
top- and bottom-edge loops compute `x = minX + (0/0)·width`, a NaN
coordinate, modelled here as `none`. -/
theorem edge_generation_division_by_zero :
    generateEdgePoints 0 1 0 1 1 1 =
      [⟨none, some 1⟩, ⟨none, some 0⟩] ∧
    ∃ p ∈ generateEdgePoints 0 1 0 1 1 1, p.x = none := by
  refine ⟨by decide!, ⟨⟨none, some 1⟩, ?_, rfl⟩⟩
  rw [show generateEdgePoints 0 1 0 1 1 1 = [⟨none, some 1⟩, ⟨none, some 0⟩]
    from by decide!]
  exact List.mem_cons_self _ _

/-! ### Claim C8 -/

/-- C8 is false of the code: `MitchellSampling.generate` pushes its first
(random) point before checking the target count, so a request for zero
interior points still contributes exactly one interior point, for every
bounds and random stream. -/
theorem mitchell_zero_target_emits_one_point
    (minX maxX minY maxY : ℚ) (rands : ℕ → ℚ × ℚ) (candidatesPerPoint : ℕ) :
    (mitchellGenerate minX maxX minY maxY rands candidatesPerPoint 0).length = 1 :=
  rfl

/-! ### Claim C9 -/

theorem unusedCount_cons (s : ContourSeg) (b : Bool) (rest : List (ContourSeg × Bool)) :
    unusedCount ((s, b) :: rest) = (bif b then 0 else 1) + unusedCount rest := by
  cases b <;> simp [unusedCount, List.filter, Nat.add_comm]

theorem tryExtendEnd_unused {last : Point} :
    ∀ (segs segs' : List (ContourSeg × Bool)) (p : Point),
      tryExtendEnd last segs = some (p, segs') →
      unusedCount segs' + 1 = unusedCount segs := by
  intro segs
  induction segs with
  | nil => intro segs' p h; cases h
  | cons sb rest ih =>
    intro segs' p h
    obtain ⟨s, used⟩ := sb
    unfold tryExtendEnd at h
    split_ifs at h with h1 h2
    · obtain ⟨hb, _⟩ := Bool.and_eq_true_iff.mp h1
      have hu : used = false := by simpa using hb
      subst hu
      simp only [Option.some.injEq, Prod.mk.injEq] at h
      obtain ⟨_, rfl⟩ := h
      simp [unusedCount_cons]
      omega
    · obtain ⟨hb, _⟩ := Bool.and_eq_true_iff.mp h2
      have hu : used = false := by simpa using hb
      subst hu
      simp only [Option.some.injEq, Prod.mk.injEq] at h
      obtain ⟨_, rfl⟩ := h
      simp [unusedCount_cons]
      omega
    · rw [Option.map_eq_some'] at h
      obtain ⟨r, hr, hre⟩ := h
      simp only [Prod.mk.injEq] at hre
      obtain ⟨_, rfl⟩ := hre
      rw [unusedCount_cons, unusedCount_cons]
      have := ih r.2 r.1 (by rw [hr])
      omega

theorem tryExtendStart_unused {first : Point} :
    ∀ (segs segs' : List (ContourSeg × Bool)) (p : Point),
      tryExtendStart first segs = some (p, segs') →
      unusedCount segs' + 1 = unusedCount segs := by
  intro segs
  induction segs with
  | nil => intro segs' p h; cases h
  | cons sb rest ih =>
    intro segs' p h
    obtain ⟨s, used⟩ := sb
    unfold tryExtendStart at h
    split_ifs at h with h1 h2
    · obtain ⟨hb, _⟩ := Bool.and_eq_true_iff.mp h1
      have hu : used = false := by simpa using hb
      subst hu
      simp only [Option.some.injEq, Prod.mk.injEq] at h
      obtain ⟨_, rfl⟩ := h
      simp [unusedCount_cons]
      omega
    · obtain ⟨hb, _⟩ := Bool.and_eq_true_iff.mp h2
      have hu : used = false := by simpa using hb
      subst hu
      simp only [Option.some.injEq, Prod.mk.injEq] at h
      obtain ⟨_, rfl⟩ := h
      simp [unusedCount_cons]
      omega
    · rw [Option.map_eq_some'] at h
      obtain ⟨r, hr, hre⟩ := h
      simp only [Prod.mk.injEq] at hre
      obtain ⟨_, rfl⟩ := hre
      rw [unusedCount_cons, unusedCount_cons]
      have := ih r.2 r.1 (by rw [hr])
      omega

/-- Each pass of the extension loop trades one unused segment for one more
polyline point: the sum of line length and unused count is invariant. -/
theorem extendLoop_conserves :
    ∀ (fuel : ℕ) (line : List Point) (segs : List (ContourSeg × Bool)),
      (extendLoop fuel line segs).1.length +
        unusedCount (extendLoop fuel line segs).2 =
      line.length + unusedCount segs := by
  intro fuel
  induction fuel with
  | zero => intro line segs; rfl
  | succ fuel ih =>
    intro line segs
    unfold extendLoop
    cases he : tryExtendEnd (line.getLastD pt0) segs with
    | some r =>
      obtain ⟨p, segs'⟩ := r
      dsimp only
      have h1 := tryExtendEnd_unused _ _ _ he
      have h2 := ih (line ++ [p]) segs'
      simp only [List.length_append, List.length_cons, List.length_nil] at h2
      omega
    | none =>
      cases hs : tryExtendStart (line.headD pt0) segs with
      | some r =>
        obtain ⟨p, segs'⟩ := r
        dsimp only
        have h1 := tryExtendStart_unused _ _ _ hs
        have h2 := ih (p :: line) segs'
        simp only [List.length_cons] at h2
        omega
      | none => rfl

/-- The extension loop never shortens the line. -/
theorem extendLoop_line_grows :
    ∀ (fuel : ℕ) (line : List Point) (segs : List (ContourSeg × Bool)),
      line.length ≤ (extendLoop fuel line segs).1.length := by
  intro fuel
  induction fuel with
  | zero => intro line segs; exact le_rfl
  | succ fuel ih =>
    intro line segs
    unfold extendLoop
    cases he : tryExtendEnd (line.getLastD pt0) segs with
    | some r =>
      obtain ⟨p, segs'⟩ := r
      dsimp only
      have := ih (line ++ [p]) segs'
      simp only [List.length_append, List.length_cons, List.length_nil] at this
      omega
    | none =>
      cases hs : tryExtendStart (line.headD pt0) segs with
      | some r =>
        obtain ⟨p, segs'⟩ := r
        dsimp only
        have := ih (p :: line) segs'
        simp only [List.length_cons] at this
        omega
      | none => exact le_rfl

theorem firstUnused_some :
    ∀ (segs : List (ContourSeg × Bool)) (s : ContourSeg)
      (segs' : List (ContourSeg × Bool)),
      firstUnused segs = some (s, segs') →
      unusedCount segs' + 1 = unusedCount segs := by
  intro segs
  induction segs with
  | nil => intro s segs' h; cases h
  | cons sb rest ih =>
    intro s segs' h
    obtain ⟨t, used⟩ := sb
    unfold firstUnused at h
    split_ifs at h with h1
    · subst h1
      rw [Option.map_eq_some'] at h
      obtain ⟨r, hr, hre⟩ := h
      simp only [Prod.mk.injEq] at hre
      obtain ⟨_, rfl⟩ := hre
      rw [unusedCount_cons, unusedCount_cons]
      have := ih r.1 r.2 (by rw [hr])
      omega
    · have hu : used = false := by simpa using h1
      subst hu
      simp only [Option.some.injEq, Prod.mk.injEq] at h
      obtain ⟨_, rfl⟩ := h
      simp [unusedCount_cons]
      omega

theorem firstUnused_none :
    ∀ {segs : List (ContourSeg × Bool)},
      firstUnused segs = none → unusedCount segs = 0 := by
  intro segs
  induction segs with
  | nil => intro _; rfl
  | cons sb rest ih =>
    intro h
    obtain ⟨t, used⟩ := sb
    unfold firstUnused at h
    split_ifs at h with h1
    subst h1
    rw [Option.map_eq_none'] at h
    rw [unusedCount_cons, ih h]
    rfl

theorem sumSegCounts_append_one (lines : List (List Point)) (l : List Point) :
    sumSegCounts (lines ++ [l]) = sumSegCounts lines + (l.length - 1) := by
  simp [sumSegCounts]

theorem connectLoop_sum :
    ∀ (fuel : ℕ) (segs : List (ContourSeg × Bool)) (acc : List (List Point)),
      unusedCount segs ≤ fuel →
      sumSegCounts (connectLoop fuel segs acc) =
        sumSegCounts acc.reverse + unusedCount segs := by
  intro fuel
  induction fuel with
  | zero =>
    intro segs acc hle
    unfold connectLoop
    omega
  | succ fuel ih =>
    intro segs acc hle
    unfold connectLoop
    cases hf : firstUnused segs with
    | none =>
      rw [firstUnused_none hf]
      rfl
    | some r =>
      obtain ⟨s, segs'⟩ := r
      have hf1 := firstUnused_some _ _ _ hf
      have hcons := extendLoop_conserves (segs'.length + 1) [s.start, s.stop] segs'
      have hgrow := extendLoop_line_grows (segs'.length + 1) [s.start, s.stop] segs'
      simp only [List.length_cons, List.length_nil] at hcons hgrow
      have hrec := ih (extendLoop (segs'.length + 1) [s.start, s.stop] segs').2
        ((extendLoop (segs'.length + 1) [s.start, s.stop] segs').1 :: acc)
        (by omega)
      rw [hrec]
      have hrev : ((extendLoop (segs'.length + 1) [s.start, s.stop] segs').1 ::
          acc).reverse = acc.reverse ++
            [(extendLoop (segs'.length + 1) [s.start, s.stop] segs').1] := by
        simp
      rw [hrev, sumSegCounts_append_one]
      omega

/-- C9, counterexample: stitching is not invariant under input permutation,
even up to reversal and rotation of each output polyline.  Three segments
meeting in a T at (1,0): processed as [A,B,C], B is chained onto A and the
spur C stays alone; processed as [A,C,B], C is chained onto A and B stays
alone.  The two outputs are not matchable up to rotation/reversal. -/
theorem stitching_order_dependent :
    connectContourSegments
        [⟨⟨0, 0⟩, ⟨1, 0⟩⟩, ⟨⟨1, 0⟩, ⟨2, 0⟩⟩, ⟨⟨1, 0⟩, ⟨1, 1⟩⟩] =
      [[⟨0, 0⟩, ⟨1, 0⟩, ⟨2, 0⟩], [⟨1, 0⟩, ⟨1, 1⟩]] ∧
    connectContourSegments
        [⟨⟨0, 0⟩, ⟨1, 0⟩⟩, ⟨⟨1, 0⟩, ⟨1, 1⟩⟩, ⟨⟨1, 0⟩, ⟨2, 0⟩⟩] =
      [[⟨0, 0⟩, ⟨1, 0⟩, ⟨1, 1⟩], [⟨1, 0⟩, ⟨2, 0⟩]] ∧
    samePolylineSets
      (connectContourSegments
        [⟨⟨0, 0⟩, ⟨1, 0⟩⟩, ⟨⟨1, 0⟩, ⟨2, 0⟩⟩, ⟨⟨1, 0⟩, ⟨1, 1⟩⟩])
      (connectContourSegments
        [⟨⟨0, 0⟩, ⟨1, 0⟩⟩, ⟨⟨1, 0⟩, ⟨1, 1⟩⟩, ⟨⟨1, 0⟩, ⟨2, 0⟩⟩]) = false := by
  refine ⟨by decide!, by decide!, by decide!⟩

/-- C9 (amended): order invariance up to reversal/rotation fails, but for
every input order the stitching consumes each input segment exactly once:
the total number of consecutive point pairs over the output polylines
equals the number of input segments. -/
theorem stitching_uses_each_segment_once (segments : List ContourSeg) :
    sumSegCounts (connectContourSegments segments) = segments.length := by
  unfold connectContourSegments
  cases segments with
  | nil => rfl
  | cons s rest =>
    rw [if_neg (by simp)]
    have hu : unusedCount ((s :: rest).map fun s => (s, false)) =
        (s :: rest).length := by
      simp [unusedCount, List.filter_map, Function.comp]
    rw [connectLoop_sum _ _ _ (le_of_eq hu), hu]
    simp [sumSegCounts]

/-! ### Claim C1 -/

theorem wCI_three_replicate (a b c : Point) :
    wouldCreateIntersection [a, b, c] (List.replicate 3 true) 1 = false := rfl

theorem wCI_three_set (a b c : Point) :
    wouldCreateIntersection [a, b, c] ((List.replicate 3 true).set 1 false) 1 =
      false := rfl

theorem applyKeep_three_set (a b c : Point) :
    applyKeep [a, b, c] ((List.replicate 3 true).set 1 false) = [a, c] := rfl

/-- Mode-A simplification either returns the polyline unchanged or collapses
a 3-point line to its 2 endpoints; nothing else is reachable, because the
intersection guard refuses every removal from a polyline of 4 or more
points. -/
theorem visSimplify_cases (pts : List Point) (t : ℚ) :
    visSimplify pts t = pts ∨ (visSimplify pts t).length ≤ 2 := by
  unfold visSimplify
  split_ifs with hlen
  · exact Or.inl rfl
  · push_neg at hlen
    by_cases h4 : 4 ≤ pts.length
    · refine Or.inl ?_
      rw [markRemovals_id_of_four h4 _ (fun e he => heapOf_mem_index
        ((List.mem_insertionSort _).mp he))]
      exact applyKeep_replicate pts
    · have h3 : pts.length = 3 := by omega
      match pts, h3 with
      | [a, b, c], _ =>
        have hsort : (heapOf [a, b, c]).insertionSort
            (fun a b => a.area ≤ b.area) = [⟨1, triangleArea a b c⟩] := rfl
        rw [hsort]
        unfold markRemovals
        split_ifs with hb hg
        · exact Or.inl (applyKeep_replicate [a, b, c])
        · exact Or.inl (applyKeep_replicate [a, b, c])
        · exact Or.inr (le_of_eq rfl)

/-- Polylines with at most 3 points have no two non-adjacent segments at
all, hence no self-crossing. -/
theorem hasSelfCrossing_short {l : List Point} (h : l.length ≤ 3) :
    hasSelfCrossing l = false := by
  unfold hasSelfCrossing
  rw [List.any_eq_false]
  intro i _
  intro hco
  rw [List.any_eq_true] at hco
  obtain ⟨j, hj, hp⟩ := hco
  have hj' := List.mem_range.mp hj
  rw [Bool.and_eq_true, decide_eq_true_eq] at hp
  omega

/-- C1, counterexample: simplification does not make an already
self-crossing polyline crossing-free.  The 4-point bowtie polyline
(0,0)-(2,2)-(2,0)-(0,2) properly crosses itself (segments 0 and 2 meet at
(1,1)); with threshold 0 the simplifier returns it unchanged, so the
"simplified" output still contains two non-adjacent crossing segments. -/
theorem simplified_output_can_self_cross :
    visSimplify [⟨0, 0⟩, ⟨2, 2⟩, ⟨2, 0⟩, ⟨0, 2⟩] 0 =
      [⟨0, 0⟩, ⟨2, 2⟩, ⟨2, 0⟩, ⟨0, 2⟩] ∧
    hasSelfCrossing (visSimplify [⟨0, 0⟩, ⟨2, 2⟩, ⟨2, 0⟩, ⟨0, 2⟩] 0) = true := by
  refine ⟨by decide!, by decide!⟩

theorem lookupRM_insertRM (m : List ((ℚ × ℕ) × List Bool)) (key key' : ℚ × ℕ)
    (v : List Bool) :
    lookupRM (insertRM m key v) key' =
      if key' = key then some v else lookupRM m key' := by
  induction m with
  | nil =>
    show (if key = key' then some v else lookupRM [] key') =
      if key' = key then some v else lookupRM [] key'
    by_cases h : key' = key
    · subst h
      rfl
    · rw [if_neg (fun hh => h hh.symm), if_neg h]
  | cons kw rest ih =>
    obtain ⟨k, w⟩ := kw
    show lookupRM (if k = key then (k, v) :: rest
        else (k, w) :: insertRM rest key v) key' = _
    by_cases hk : k = key
    · subst hk
      rw [if_pos rfl]
      show (if k = key' then some v else lookupRM rest key') =
        if key' = k then some v else
          if k = key' then some w else lookupRM rest key'
      by_cases h : key' = k
      · subst h
        rw [if_pos rfl, if_pos rfl]
      · rw [if_neg (fun hh => h hh.symm), if_neg h,
          if_neg (fun hh => h hh.symm)]
    · rw [if_neg hk]
      show (if k = key' then some w else lookupRM (insertRM rest key v) key') =
        if key' = key then some v else
          if k = key' then some w else lookupRM rest key'
      by_cases h : k = key'
      · subst h
        rw [if_pos rfl, if_neg (fun hh => hk hh), if_pos rfl]
      · rw [if_neg h, if_neg h, ih]

theorem mem_enum_lt_and_getD {α : Type} {l : List α} {i : ℕ} {x : α}
    (h : (i, x) ∈ l.enum) (d : α) : i < l.length ∧ l.getD i d = x := by
  have h' : (i, x) ∈ l.enumFrom 0 := h
  have h1 := List.fst_lt_add_of_mem_enumFrom h'
  have h2 := (List.mk_mem_enumFrom_iff_le_and_getElem?_sub.mp h').2
  simp only [Nat.sub_zero] at h2
  simp only [Nat.zero_add] at h1
  exact ⟨h1, by rw [List.getD_eq_getElem?_getD, h2]; rfl⟩

theorem mem_enum_snd_mem {α : Type} {l : List α} {p : ℕ × α}
    (h : p ∈ l.enum) : p.2 ∈ l :=
  List.snd_mem_of_mem_enumFrom h

/-- With pairwise-distinct level keys (JavaScript object keys are unique),
looking a level up returns that entry's lines. -/
theorem levelLines_eq {oc : ContourMap} (hnd : (oc.map Prod.fst).Nodup) :
    ∀ {lv : ℚ × List (List Point)}, lv ∈ oc → levelLines oc lv.1 = lv.2 := by
  induction oc with
  | nil => intro lv h; cases h
  | cons e rest ih =>
    intro lv h
    rw [List.map_cons, List.nodup_cons] at hnd
    rcases List.mem_cons.mp h with rfl | hmem
    · unfold levelLines
      rw [if_pos rfl]
    · unfold levelLines
      rw [if_neg ?_, ih hnd.2 hmem]
      intro he
      exact hnd.1 (he ▸ List.mem_map_of_mem Prod.fst hmem)

theorem list_len3 {l : List Point} (h : l.length = 3) :
    ∃ a b c, l = [a, b, c] := by
  match l, h with
  | [a, b, c], _ => exact ⟨a, b, c, rfl⟩

/-- Invariant of the removal map: every stored keep-array is either
all-true, or belongs to a 3-point line with exactly its middle flag
cleared.  The intersection guard enforces this: any removal from a line of
4 or more points is refused. -/
theorem buildRemovalMap_inv (oc : ContourMap) :
    ∀ (cs : List RemovalCandidate) (m : List ((ℚ × ℕ) × List Bool)),
      (∀ c ∈ cs, 3 ≤ (lineAt oc c.level c.lineIndex).length ∧
        1 ≤ c.pointIndex ∧
        c.pointIndex + 2 ≤ (lineAt oc c.level c.lineIndex).length) →
      (∀ level idx keep, lookupRM m (level, idx) = some keep →
        keep = List.replicate (lineAt oc level idx).length true ∨
        ((lineAt oc level idx).length = 3 ∧
          keep = (List.replicate 3 true).set 1 false)) →
      ∀ level idx keep,
        lookupRM (buildRemovalMap oc cs m) (level, idx) = some keep →
        keep = List.replicate (lineAt oc level idx).length true ∨
        ((lineAt oc level idx).length = 3 ∧
          keep = (List.replicate 3 true).set 1 false) := by
  intro cs
  induction cs with
  | nil => intro m _ hinv; exact hinv
  | cons c rest ih =>
    intro m hwf hinv
    obtain ⟨hlen3, hpi1, hpi2⟩ := hwf c (List.mem_cons_self _ _)
    unfold buildRemovalMap
    dsimp only
    refine ih _ (fun c' hc' => hwf c' (List.mem_cons_of_mem _ hc')) ?_
    intro level idx keep hk
    rw [lookupRM_insertRM] at hk
    split_ifs at hk with hkey hg
    · -- entry just written; the guard refused, the array is unchanged
      rw [Option.some.injEq] at hk
      subst hk
      rw [Prod.mk.injEq] at hkey
      obtain ⟨rfl, rfl⟩ := hkey
      cases hl : lookupRM m (c.level, c.lineIndex) with
      | none =>
        rw [Option.getD_none]
        exact Or.inl rfl
      | some k0 =>
        rcases hinv c.level c.lineIndex k0 hl with h0 | ⟨h3, h0⟩
        · rw [Option.getD_some]
          exact Or.inl h0
        · rw [Option.getD_some]
          exact Or.inr ⟨h3, h0⟩
    · -- entry just written; the guard allowed, one flag cleared.  The guard
      -- returning false forces the line to have exactly 3 points.
      rw [Option.some.injEq] at hk
      subst hk
      rw [Prod.mk.injEq] at hkey
      obtain ⟨rfl, rfl⟩ := hkey
      cases hl : lookupRM m (c.level, c.lineIndex) with
      | none =>
        rw [hl, Option.getD_none] at hg
        rw [Option.getD_none]
        by_cases h4 : 4 ≤ (lineAt oc c.level c.lineIndex).length
        · exact absurd (wouldCreateIntersection_replicate h4 hpi1 hpi2) hg
        · have h3 : (lineAt oc c.level c.lineIndex).length = 3 := by omega
          have hpi : c.pointIndex = 1 := by omega
          refine Or.inr ⟨h3, ?_⟩
          rw [h3, hpi]
      | some k0 =>
        rcases hinv c.level c.lineIndex k0 hl with h0 | ⟨h3, h0⟩
        · rw [hl, Option.getD_some, h0] at hg
          rw [Option.getD_some, h0]
          by_cases h4 : 4 ≤ (lineAt oc c.level c.lineIndex).length
          · exact absurd (wouldCreateIntersection_replicate h4 hpi1 hpi2) hg
          · have h3 : (lineAt oc c.level c.lineIndex).length = 3 := by omega
            have hpi : c.pointIndex = 1 := by omega
            refine Or.inr ⟨h3, ?_⟩
            rw [h3, hpi]
        · rw [hl, Option.getD_some, h0] at hg
          rw [Option.getD_some, h0]
          have hpi : c.pointIndex = 1 := by omega
          rw [hpi]
          exact Or.inr ⟨h3, rfl⟩
    · exact hinv level idx keep hk

/-- Every ranked removal candidate references an interior point of an
existing contour line of at least 3 points. -/
theorem ranking_wf {oc : ContourMap} (hnd : (oc.map Prod.fst).Nodup) :
    ∀ c ∈ simplificationRanking oc,
      3 ≤ (lineAt oc c.level c.lineIndex).length ∧ 1 ≤ c.pointIndex ∧
      c.pointIndex + 2 ≤ (lineAt oc c.level c.lineIndex).length := by
  intro c hc
  unfold simplificationRanking at hc
  rw [List.mem_insertionSort] at hc
  rw [List.mem_flatMap] at hc
  obtain ⟨lv, hlv, hc⟩ := hc
  rw [List.mem_flatMap] at hc
  obtain ⟨li, hli, hc⟩ := hc
  split_ifs at hc with hshort
  · cases hc
  · rw [List.mem_map] at hc
    obtain ⟨m, hm, rfl⟩ := hc
    have hm' := List.mem_range.mp hm
    obtain ⟨li1, li2⟩ := li
    obtain ⟨hlt, hgetD⟩ := mem_enum_lt_and_getD hli ([] : List Point)
    have hline : lineAt oc lv.1 li1 = li2 := by
      unfold lineAt
      rw [levelLines_eq hnd hlv]
      exact hgetD
    simp only at hline hshort hm' ⊢
    rw [hline]
    push_neg at hshort
    exact ⟨by omega, by omega, by omega⟩

/-- Every line of the count-simplified contours is either one of the
original lines (of the same map) or a 2-point line. -/
theorem applyByCount_lines {oc : ContourMap} (hnd : (oc.map Prod.fst).Nodup)
    (k : ℕ) :
    ∀ lv' ∈ applySimplificationByCount oc (simplificationRanking oc) k,
      ∀ line' ∈ lv'.2, (∃ lv ∈ oc, line' ∈ lv.2) ∨ line'.length = 2 := by
  unfold applySimplificationByCount
  split_ifs with h0
  · intro lv' hlv' line' hline'
    exact Or.inl ⟨lv', hlv', hline'⟩
  · intro lv' hlv' line' hline'
    rw [List.mem_map] at hlv'
    obtain ⟨lv, hlv, rfl⟩ := hlv'
    simp only at hline'
    rw [List.mem_filterMap] at hline'
    obtain ⟨li, hli, hg⟩ := hline'
    obtain ⟨li1, li2⟩ := li
    obtain ⟨hlt, hgetD⟩ := mem_enum_lt_and_getD hli ([] : List Point)
    have hline : lineAt oc lv.1 li1 = li2 := by
      unfold lineAt
      rw [levelLines_eq hnd hlv]
      exact hgetD
    have hmem2 : li2 ∈ lv.2 := mem_enum_snd_mem hli
    simp only at hg
    cases hlook : lookupRM (buildRemovalMap oc
        ((simplificationRanking oc).take k) []) (lv.1, li1) with
    | none =>
      rw [hlook, Option.some.injEq] at hg
      subst hg
      exact Or.inl ⟨lv, hlv, hmem2⟩
    | some keep =>
      rw [hlook] at hg
      dsimp only at hg
      have hP := buildRemovalMap_inv oc ((simplificationRanking oc).take k) []
        (fun c hc => ranking_wf hnd c (List.mem_of_mem_take hc))
        (by intro _ _ _ hlk; cases hlk)
        lv.1 li1 keep hlook
      rw [hline] at hP
      rcases hP with hP | ⟨hP3, hP⟩
      · subst hP
        rw [applyKeep_replicate li2] at hg
        split_ifs at hg with hlen2
        rw [Option.some.injEq] at hg
        subst hg
        exact Or.inl ⟨lv, hlv, hmem2⟩
      · subst hP
        obtain ⟨a, b, c', rfl⟩ := list_len3 hP3
        rw [applyKeep_three_set] at hg
        split_ifs at hg with hlen2
        rw [Option.some.injEq] at hg
        subst hg
        exact Or.inr rfl

/-- C1 (amended): simplification introduces no new self-crossing.  Mode A:
if the input polyline has no two non-adjacent properly-crossing segments,
neither does its simplification, for every threshold.  Mode B: for every
removal count, if no original contour line self-crosses (levels being
pairwise distinct, as JavaScript object keys are), no line of the
count-simplified contours self-crosses.  Pre-existing crossings, however,
are preserved, so the claim's unconditional form is false. -/
theorem simplification_no_new_self_crossing :
    (∀ (pts : List Point) (t : ℚ), hasSelfCrossing pts = false →
      hasSelfCrossing (visSimplify pts t) = false) ∧
    (∀ (oc : ContourMap) (k : ℕ), (oc.map Prod.fst).Nodup →
      (∀ lv ∈ oc, ∀ line ∈ lv.2, hasSelfCrossing line = false) →
      ∀ lv' ∈ applySimplificationByCount oc (simplificationRanking oc) k,
        ∀ line' ∈ lv'.2, hasSelfCrossing line' = false) := by
  constructor
  · intro pts t h
    rcases visSimplify_cases pts t with he | hl
    · rw [he]
      exact h
    · exact hasSelfCrossing_short (by omega)
  · intro oc k hnd horig lv' hlv' line' hline'
    rcases applyByCount_lines hnd k lv' hlv' line' hline' with ⟨lv, hlv, hmem⟩ | h2
    · exact horig lv hlv line' hmem
    · exact hasSelfCrossing_short (by omega)

/-- C1 witness: both amended parts applied at concrete inputs — mode A on a
3-point wedge with threshold 2, mode B on a one-level map with one 3-point
line and removal count 1 (its interior point is removed, leaving the
2-point line). -/
theorem simplification_no_new_self_crossing_witness :
    hasSelfCrossing (visSimplify [⟨0, 0⟩, ⟨1, 1⟩, ⟨2, 0⟩] 2) = false ∧
    hasSelfCrossing [(⟨0, 0⟩ : Point), ⟨2, 0⟩] = false := by
  constructor
  · exact simplification_no_new_self_crossing.1 [⟨0, 0⟩, ⟨1, 1⟩, ⟨2, 0⟩] 2
      (by decide!)
  · refine simplification_no_new_self_crossing.2
      [((10 : ℚ), [[⟨0, 0⟩, ⟨1, 1⟩, ⟨2, 0⟩]])] 1 (by decide!) (by decide!)
      ((10 : ℚ), [[⟨0, 0⟩, ⟨2, 0⟩]]) ?_ [⟨0, 0⟩, ⟨2, 0⟩] ?_
    · rw [show applySimplificationByCount [((10 : ℚ), [[⟨0, 0⟩, ⟨1, 1⟩, ⟨2, 0⟩]])]
        (simplificationRanking [((10 : ℚ), [[⟨0, 0⟩, ⟨1, 1⟩, ⟨2, 0⟩]])]) 1 =
        [((10 : ℚ), [[⟨0, 0⟩, ⟨2, 0⟩]])] from by decide!]
      exact List.mem_cons_self _ _
    · exact List.mem_cons_self _ _

end Isolines
